import Mathlib

/-
Verification of the re-timing and flow-control core of psxavenc
(src/psxavenc/ringbuf.c and src/psxavenc/decoding.c).

Modelling conventions:
* C `int` fields become `Int`; the C `%` operator (truncated remainder)
  is `Int.tmod`.  A modulo whose divisor is zero is undefined behaviour
  in C, so operations that would evaluate `x % 0` return `none`.
* A failed `assert` aborts the program, modelled as `none`.
* Pointers into the ring's backing storage become item indices: the C
  expression `data + item_size * idx` is represented by the index `idx`
  itself, and the storage is a total function `data : Int → α`.
* `memcpy` into a contiguous run of slots becomes `write_span`.
* Calls into FFmpeg (decode, resample, scale) are outside this core;
  they are abstracted exactly where the spec declares them external
  collaborators.
-/

namespace Psxavenc

/-- The `ring_buffer_t` struct from ringbuf.h.  `data` is the backing
storage indexed by item slot; all other fields mirror the C struct. -/
structure ring_buffer (α : Type) where
  data : Int → α
  item_size : Int
  capacity : Int
  head : Int
  tail : Int
  count : Int

/-- Embedding of `init_ring_buffer` from ringbuf.c: capacity as given,
`head = tail = count = 0`.  The freshly allocated storage is
uninitialised in C, so the model takes an arbitrary initial `d0`. -/
def init_ring_buffer (item_size initial_capacity : Int) (d0 : Int → α) :
    ring_buffer α :=
  { data := d0, item_size := item_size, capacity := initial_capacity,
    head := 0, tail := 0, count := 0 }

/-- Embedding of `ring_buffer_append` from ringbuf.c.  The C code first
asserts `count >= 0 && count <= capacity - buf->count` and then executes
`buf->tail = (buf->tail + count) % buf->capacity; buf->count += count`.
A failed assertion, or the division by zero that `% buf->capacity`
performs when `capacity = 0`, yields `none`. -/
def ring_buffer_append (buf : ring_buffer α) (count : Int) :
    Option (ring_buffer α) :=
  if 0 ≤ count ∧ count ≤ buf.capacity - buf.count then
    if buf.capacity = 0 then none
    else some { buf with tail := Int.tmod (buf.tail + count) buf.capacity,
                         count := buf.count + count }
  else none

/-- Embedding of `ring_buffer_remove` from ringbuf.c: asserts
`count >= 0 && count <= buf->count`, then
`buf->head = (buf->head + count) % buf->capacity; buf->count -= count`. -/
def ring_buffer_remove (buf : ring_buffer α) (count : Int) :
    Option (ring_buffer α) :=
  if 0 ≤ count ∧ count ≤ buf.count then
    if buf.capacity = 0 then none
    else some { buf with head := Int.tmod (buf.head + count) buf.capacity,
                         count := buf.count - count }
  else none

/-- Embedding of `ring_buffer_get_head` from ringbuf.c: asserts
`offset <= buf->count && buf->count > 0`, then returns the pointer
`data + item_size * ((head + offset) % capacity)`, represented here by
the item index `(head + offset) % capacity` with C `%` semantics. -/
def ring_buffer_get_head (buf : ring_buffer α) (offset : Int) : Option Int :=
  if offset ≤ buf.count ∧ 0 < buf.count then
    if buf.capacity = 0 then none
    else some (Int.tmod (buf.head + offset) buf.capacity)
  else none

/-- Embedding of `ring_buffer_get_tail` from ringbuf.c: asserts
`offset <= buf->count`, then returns the pointer
`data + item_size * ((tail - offset) % capacity)`, represented here by
the item index `(tail - offset) % capacity` with C `%` semantics (the
truncated remainder, which is negative when `tail - offset` is negative
and does not divide evenly). -/
def ring_buffer_get_tail (buf : ring_buffer α) (offset : Int) : Option Int :=
  if offset ≤ buf.count then
    if buf.capacity = 0 then none
    else some (Int.tmod (buf.tail - offset) buf.capacity)
  else none

/-- Embedding of `ring_buffer_is_contiguous` from ringbuf.c:
`(head + count) == tail || (head + count) == capacity`. -/
def ring_buffer_is_contiguous (buf : ring_buffer α) : Bool :=
  buf.head + buf.count == buf.tail || buf.head + buf.count == buf.capacity

/-- Embedding of `ring_buffer_get_contiguous_span` from ringbuf.c:
`capacity - tail` when contiguous, `head - tail` otherwise. -/
def ring_buffer_get_contiguous_span (buf : ring_buffer α) : Int :=
  if ring_buffer_is_contiguous buf then buf.capacity - buf.tail
  else buf.head - buf.tail

/-- A `memcpy` of `items` into the contiguous run of slots
`[start, start + items.length)` of the backing storage, as performed by
the callers in decoding.c after obtaining a write pointer from
`ring_buffer_get_tail(buf, 0)`. -/
def write_span (buf : ring_buffer α) (start : Int) (items : List α) :
    ring_buffer α :=
  { buf with data := fun j =>
      if start ≤ j ∧ j < start + items.length then
        items.getD (j - start).toNat (buf.data j)
      else buf.data j }

/-- The ring invariant stated by the spec: `0 ≤ count ≤ capacity`,
`head, tail ∈ [0, capacity)`, and
`(tail − head) mod capacity = count mod capacity` (mathematical mod). -/
def ring_buffer_inv (buf : ring_buffer α) : Prop :=
  0 ≤ buf.count ∧ buf.count ≤ buf.capacity ∧
  0 ≤ buf.head ∧ buf.head < buf.capacity ∧
  0 ≤ buf.tail ∧ buf.tail < buf.capacity ∧
  (buf.tail - buf.head) % buf.capacity = buf.count % buf.capacity

instance (buf : ring_buffer α) : Decidable (ring_buffer_inv buf) := by
  unfold ring_buffer_inv; infer_instance

/-- One call of the C2 operation sequence: either an append or a remove. -/
inductive ring_op where
  | append (n : Int)
  | remove (n : Int)
deriving DecidableEq

/-- Dispatch one operation to the corresponding ringbuf.c function. -/
def apply_ring_op (buf : ring_buffer α) : ring_op → Option (ring_buffer α)
  | .append n => ring_buffer_append buf n
  | .remove n => ring_buffer_remove buf n

/-- Run a finite sequence of `ring_buffer_append`/`ring_buffer_remove`
calls; `none` as soon as one of them fails its assertion (or divides by
a zero capacity). -/
def run_ring_ops (buf : ring_buffer α) : List ring_op → Option (ring_buffer α)
  | [] => some buf
  | op :: rest => (apply_ring_op buf op).bind fun b => run_ring_ops b rest

lemma tmod_bounds {a b : Int} (ha : 0 ≤ a) (hb : 0 < b) :
    0 ≤ Int.tmod a b ∧ Int.tmod a b < b ∧ Int.tmod a b = a % b := by
  have h := Int.tmod_eq_emod ha (le_of_lt hb)
  refine ⟨?_, ?_, h⟩
  · rw [h]; exact Int.emod_nonneg a (ne_of_gt hb)
  · rw [h]; exact Int.emod_lt_of_pos a hb

lemma emod_sub_cancel_left (a b n : Int) : (a % n - b) % n = (a - b) % n := by
  conv_lhs => rw [Int.sub_emod]
  rw [Int.emod_emod_of_dvd _ dvd_rfl, ← Int.sub_emod]

/-- `ring_buffer_append` preserves the ring invariant (and the
capacity). -/
lemma ring_buffer_append_inv {buf b : ring_buffer α} {n : Int}
    (hinv : ring_buffer_inv buf) (h : ring_buffer_append buf n = some b) :
    ring_buffer_inv b ∧ b.capacity = buf.capacity := by
  obtain ⟨hc0, hcc, hh0, hhc, ht0, htc, hmod⟩ := hinv
  have hcap : 0 < buf.capacity := lt_of_le_of_lt hh0 hhc
  unfold ring_buffer_append at h
  split at h
  · next hpre =>
    rw [if_neg (ne_of_gt hcap)] at h
    obtain ⟨hn0, hnc⟩ := hpre
    obtain ⟨h0, h1, h2⟩ := tmod_bounds (by omega : (0:Int) ≤ buf.tail + n) hcap
    cases h
    refine ⟨⟨by simpa using by omega, by simpa using by omega, by simpa using hh0,
      by simpa using hhc, by simpa using h0, by simpa using h1, ?_⟩, rfl⟩
    show (Int.tmod (buf.tail + n) buf.capacity - buf.head) % buf.capacity
        = (buf.count + n) % buf.capacity
    rw [h2, emod_sub_cancel_left]
    have he : buf.tail + n - buf.head = buf.tail - buf.head + n := by ring
    rw [he, Int.add_emod, hmod, ← Int.add_emod]
  · exact absurd h (by simp)

/-- `ring_buffer_remove` preserves the ring invariant (and the
capacity). -/
lemma ring_buffer_remove_inv {buf b : ring_buffer α} {n : Int}
    (hinv : ring_buffer_inv buf) (h : ring_buffer_remove buf n = some b) :
    ring_buffer_inv b ∧ b.capacity = buf.capacity := by
  obtain ⟨hc0, hcc, hh0, hhc, ht0, htc, hmod⟩ := hinv
  have hcap : 0 < buf.capacity := lt_of_le_of_lt hh0 hhc
  unfold ring_buffer_remove at h
  split at h
  · next hpre =>
    rw [if_neg (ne_of_gt hcap)] at h
    obtain ⟨hn0, hnc⟩ := hpre
    obtain ⟨h0, h1, h2⟩ := tmod_bounds (by omega : (0:Int) ≤ buf.head + n) hcap
    cases h
    refine ⟨⟨by simpa using by omega, by simpa using by omega, by simpa using h0,
      by simpa using h1, by simpa using ht0, by simpa using htc, ?_⟩, rfl⟩
    show (buf.tail - Int.tmod (buf.head + n) buf.capacity) % buf.capacity
        = (buf.count - n) % buf.capacity
    rw [h2, Int.sub_emod, Int.emod_emod_of_dvd _ dvd_rfl, ← Int.sub_emod]
    have he : buf.tail - (buf.head + n) = buf.tail - buf.head - n := by ring
    rw [he, Int.sub_emod, hmod, ← Int.sub_emod]
  · exact absurd h (by simp)

lemma apply_ring_op_inv {buf b : ring_buffer α} {op : ring_op}
    (hinv : ring_buffer_inv buf) (h : apply_ring_op buf op = some b) :
    ring_buffer_inv b ∧ b.capacity = buf.capacity := by
  cases op with
  | append n => exact ring_buffer_append_inv hinv h
  | remove n => exact ring_buffer_remove_inv hinv h

/-- Claim C2: for every ring satisfying the invariant (in particular every
freshly initialised ring of positive capacity) and every finite
sequence of `ring_buffer_append`/`ring_buffer_remove` calls that all
satisfy their preconditions (the sequence runs to completion), the ring
invariant `0 ≤ count ≤ capacity`, `head, tail ∈ [0, capacity)`,
`(tail − head) mod capacity = count mod capacity` holds after every
call, i.e. after every prefix of the sequence. -/
theorem ring_ops_preserve_inv (ops : List ring_op) (buf : ring_buffer α)
    (hinv : ring_buffer_inv buf)
    (hrun : (run_ring_ops buf ops).isSome = true) :
    ∀ pre, pre <+: ops →
      ∃ b, run_ring_ops buf pre = some b ∧ ring_buffer_inv b := by
  induction ops generalizing buf with
  | nil =>
    intro pre hpre
    obtain ⟨t, ht⟩ := hpre
    rw [(List.append_eq_nil.mp ht).1]
    exact ⟨buf, rfl, hinv⟩
  | cons op rest ih =>
    intro pre hpre
    cases pre with
    | nil => exact ⟨buf, rfl, hinv⟩
    | cons op' pre' =>
      obtain ⟨t, ht⟩ := hpre
      rw [List.cons_append] at ht
      injection ht with heq ht'
      have hpre' : pre' <+: rest := ⟨t, ht'⟩
      subst heq
      rw [run_ring_ops] at hrun
      cases hb : apply_ring_op buf op' with
      | none =>
        rw [hb, Option.none_bind, Option.isSome_none] at hrun
        exact absurd hrun (by decide)
      | some b =>
        rw [hb] at hrun
        simp only [Option.some_bind] at hrun
        obtain ⟨hbinv, -⟩ := apply_ring_op_inv hinv hb
        obtain ⟨b', hrun', hinv'⟩ := ih b hbinv hrun pre' hpre'
        refine ⟨b', ?_, hinv'⟩
        rw [run_ring_ops, hb, Option.some_bind, hrun']

/-- A concrete ring of capacity 3 exercising the C2 theorem: append 2,
remove 1, append 2 (which wraps the tail). -/
def c2_example_ring : ring_buffer Nat := init_ring_buffer 1 3 (fun _ => 0)

theorem ring_ops_preserve_inv_witness :
    ∃ b, run_ring_ops c2_example_ring [ring_op.append 2, ring_op.remove 1]
        = some b ∧ ring_buffer_inv b :=
  ring_ops_preserve_inv
    [ring_op.append 2, ring_op.remove 1, ring_op.append 2]
    c2_example_ring (by decide) (by decide)
    [ring_op.append 2, ring_op.remove 1] (by decide)

/-- A reachable ring state for the video FIFO (capacity 32) in which the
live region wraps so that `tail = 0` while 27 items are buffered.  It
satisfies the ring invariant. -/
def wrapped_tail_ring : ring_buffer Nat :=
  { data := fun _ => 0, item_size := 1, capacity := 32,
    head := 5, tail := 0, count := 27 }

/-- Claim C7: `ring_buffer_get_tail` is specified to return the slot at index
`(tail - offset) mod capacity` with the result in `[0, capacity)`, in
particular also when `offset > tail`.  The C code instead evaluates the
C `%` (truncated remainder), which is negative for a negative dividend:
on the invariant-satisfying wrapped ring with `tail = 0`,
`capacity = 32`, `count = 27`, the call `ring_buffer_get_tail(buf, 1)`
(used by the duplication path of `poll_av_packet_video`) yields item
index `-1` — the pointer `data - item_size`, one item before the
buffer — whereas the mathematical modulus of the claim yields `31`. -/
theorem ring_buffer_get_tail_wrap_bug :
    ring_buffer_inv wrapped_tail_ring ∧
    (1 : Int) ≤ wrapped_tail_ring.count ∧
    ring_buffer_get_tail wrapped_tail_ring 1 = some (-1) ∧
    (wrapped_tail_ring.tail - 1) % wrapped_tail_ring.capacity = 31 := by
  refine ⟨by decide, by decide, ?_, by decide⟩
  decide

/-- The zero-capacity ring produced by `init_ring_buffer(buf, 1, 0)`,
used by decoding.c for an absent track. -/
def zero_cap_ring : ring_buffer Nat := init_ring_buffer 1 0 (fun _ => 0)

/-- Claim C8, counterexample: on a zero-capacity ring, `ring_buffer_append(buf, 0)`
and `ring_buffer_remove(buf, 0)` do not return normally with the state
unchanged — after their assertions pass, both evaluate `% capacity` with
`capacity = 0`, a division by zero (undefined behaviour, `none` in the
model), so neither call is a total no-op. -/
theorem zero_cap_ring_ops_fault :
    ring_buffer_append zero_cap_ring 0 = none ∧
    ring_buffer_remove zero_cap_ring 0 = none :=
  ⟨rfl, rfl⟩

/-- Claim C8, amended: on every zero-capacity ring (necessarily holding no
items), `ring_buffer_append(buf, 0)` and `ring_buffer_remove(buf, 0)` —
the only calls permitted by their assertions — pass those assertions but
then compute `(tail + 0) % 0` resp. `(head + 0) % 0`, a division by
zero, instead of returning with `head`, `tail` and `count` unchanged. -/
theorem zero_cap_ring_ops_divide_by_zero (buf : ring_buffer α)
    (hcap : buf.capacity = 0) (hcnt : buf.count = 0) :
    ring_buffer_append buf 0 = none ∧ ring_buffer_remove buf 0 = none := by
  unfold ring_buffer_append ring_buffer_remove
  rw [hcap, hcnt]
  norm_num

theorem zero_cap_ring_ops_divide_by_zero_witness :
    ring_buffer_append zero_cap_ring 0 = none ∧
    ring_buffer_remove zero_cap_ring 0 = none :=
  zero_cap_ring_ops_divide_by_zero zero_cap_ring rfl rfl

@[simp] lemma write_span_capacity (buf : ring_buffer α) (s : Int) (items : List α) :
    (write_span buf s items).capacity = buf.capacity := rfl

@[simp] lemma write_span_head (buf : ring_buffer α) (s : Int) (items : List α) :
    (write_span buf s items).head = buf.head := rfl

@[simp] lemma write_span_tail (buf : ring_buffer α) (s : Int) (items : List α) :
    (write_span buf s items).tail = buf.tail := rfl

@[simp] lemma write_span_count (buf : ring_buffer α) (s : Int) (items : List α) :
    (write_span buf s items).count = buf.count := rfl

lemma write_span_data (buf : ring_buffer α) (s : Int) (items : List α) (j : Int) :
    (write_span buf s items).data j =
      if s ≤ j ∧ j < s + items.length then
        items.getD (j - s).toNat (buf.data j)
      else buf.data j := rfl

lemma tmod_coe (a b : Nat) : Int.tmod (a : Int) (b : Int) = ((a % b : Nat) : Int) := rfl

lemma add_mod_left_cancel (a b n : Nat) : (a % n + b) % n = (a + b) % n := by
  conv_lhs => rw [Nat.add_mod]
  rw [Nat.mod_mod_of_dvd _ dvd_rfl, ← Nat.add_mod]

/-- Abstraction relation for a live ring: the ring of capacity `cap`
holds exactly the items `xs` (oldest first), the oldest at slot `p`,
item number `i` at slot `(p + i) % cap`, with `head`, `tail` and
`count` derived accordingly. -/
def ring_repr (buf : ring_buffer α) (cap p : Nat) (xs : List α) : Prop :=
  buf.capacity = (cap : Int) ∧ 0 < cap ∧ p < cap ∧ xs.length ≤ cap ∧
  buf.head = (p : Int) ∧ buf.count = (xs.length : Int) ∧
  buf.tail = (((p + xs.length) % cap : Nat) : Int) ∧
  ∀ i, (h : i < xs.length) → buf.data (((p + i) % cap : Nat) : Int) = xs.get ⟨i, h⟩

instance [DecidableEq α] (buf : ring_buffer α) (cap p : Nat) (xs : List α) :
    Decidable (ring_repr buf cap p xs) := by
  unfold ring_repr; infer_instance

lemma repr_get_tail_zero {buf : ring_buffer α} {cap p : Nat} {xs : List α}
    (hr : ring_repr buf cap p xs) :
    ring_buffer_get_tail buf 0 = some buf.tail := by
  obtain ⟨hcap, hpos, hp, hlen, hh, hc, ht, -⟩ := hr
  have h1 : (0 : Int) ≤ buf.count := by rw [hc]; exact Int.natCast_nonneg _
  have h2 : buf.capacity ≠ 0 := by
    rw [hcap]; exact_mod_cast hpos.ne'
  unfold ring_buffer_get_tail
  rw [if_pos h1, if_neg h2, sub_zero, ht, hcap, tmod_coe,
    Nat.mod_mod_of_dvd _ dvd_rfl]

/-- Under the representation `ring_repr`, a batch of `k` items bounded
by `ring_buffer_get_contiguous_span` and by the free space fits without
wrapping: `tail + k ≤ capacity` (with `tail = (p + count) % cap`). -/
lemma repr_window {buf : ring_buffer α} {cap p : Nat} {xs : List α} {k : Nat}
    (hr : ring_repr buf cap p xs)
    (hspan : (k : Int) ≤ ring_buffer_get_contiguous_span buf)
    (hfree : xs.length + k ≤ cap) :
    (p + xs.length) % cap + k ≤ cap := by
  obtain ⟨hcap, hpos, hp, hlen, hh, hc, ht, -⟩ := hr
  unfold ring_buffer_get_contiguous_span ring_buffer_is_contiguous at hspan
  rw [hh, hc, ht, hcap] at hspan
  rcases lt_trichotomy (p + xs.length) cap with h1 | h1 | h1
  · rw [Nat.mod_eq_of_lt h1] at hspan ⊢
    split at hspan <;> rename_i hco <;>
      simp only [Bool.or_eq_true, beq_iff_eq] at hco <;> omega
  · rw [h1, Nat.mod_self]
    omega
  · have hsub : (p + xs.length) % cap = p + xs.length - cap := by
      rw [Nat.mod_eq_sub_mod (le_of_lt h1), Nat.mod_eq_of_lt (by omega)]
    rw [hsub] at hspan ⊢
    split at hspan <;> rename_i hco <;>
      simp only [Bool.or_eq_true, beq_iff_eq] at hco <;> omega

/-- Under the representation, the contiguous span is at least 1 as soon
as the ring is not full (`count < capacity`). -/
lemma repr_span_pos {buf : ring_buffer α} {cap p : Nat} {xs : List α}
    (hr : ring_repr buf cap p xs) (hm : xs.length < cap) :
    1 ≤ ring_buffer_get_contiguous_span buf := by
  obtain ⟨hcap, hpos, hp, hlen, hh, hc, ht, -⟩ := hr
  unfold ring_buffer_get_contiguous_span ring_buffer_is_contiguous
  rw [hh, hc, ht, hcap]
  rcases lt_trichotomy (p + xs.length) cap with h1 | h1 | h1
  · rw [Nat.mod_eq_of_lt h1]
    split <;> rename_i hco <;>
      simp only [Bool.or_eq_true, beq_iff_eq] at hco <;> omega
  · rw [h1, Nat.mod_self]
    split <;> rename_i hco <;>
      simp only [Bool.or_eq_true, beq_iff_eq] at hco <;> omega
  · have hsub : (p + xs.length) % cap = p + xs.length - cap := by
      rw [Nat.mod_eq_sub_mod (le_of_lt h1), Nat.mod_eq_of_lt (by omega)]
    rw [hsub]
    split <;> rename_i hco <;>
      simp only [Bool.or_eq_true, beq_iff_eq] at hco <;> omega

/-- Core step shared by the batched producers in decoding.c: under
`ring_repr`, a batch `b` whose size is bounded by
`ring_buffer_get_contiguous_span` and by the free space, copied to the
write pointer `ring_buffer_get_tail(buf, 0)` (the slot index
`buf.tail`) and committed with `ring_buffer_append`, succeeds and
extends the represented contents by exactly `b`. -/
lemma write_step {buf : ring_buffer α} {cap p : Nat} {xs : List α} (b : List α)
    (hr : ring_repr buf cap p xs)
    (hspan : ((b.length : Nat) : Int) ≤ ring_buffer_get_contiguous_span buf)
    (hfree : xs.length + b.length ≤ cap) :
    ∃ buf2,
      ring_buffer_append (write_span buf buf.tail b) (b.length : Int) = some buf2 ∧
      ring_repr buf2 cap p (xs ++ b) := by
  have hwin := repr_window hr hspan hfree
  obtain ⟨hcap, hpos, hp, hlen, hh, hc, ht, hdata⟩ := hr
  have hTlt : (p + xs.length) % cap < cap := Nat.mod_lt _ hpos
  have hg : (0 : Int) ≤ (b.length : Int) ∧
      (b.length : Int) ≤ (write_span buf buf.tail b).capacity -
        (write_span buf buf.tail b).count := by
    rw [write_span_capacity, write_span_count, hcap, hc]
    exact ⟨Int.natCast_nonneg _, by omega⟩
  have hne : (write_span buf buf.tail b).capacity ≠ 0 := by
    rw [write_span_capacity, hcap]
    exact_mod_cast hpos.ne'
  refine ⟨_, by unfold ring_buffer_append; rw [if_pos hg, if_neg hne], ?_⟩
  refine ⟨hcap, hpos, hp, ?_, hh, ?_, ?_, ?_⟩
  · rw [List.length_append]; omega
  · show buf.count + (b.length : Int) = ((xs ++ b).length : Int)
    rw [hc, List.length_append]; push_cast; ring
  · show Int.tmod (buf.tail + (b.length : Int)) buf.capacity
      = (((p + (xs ++ b).length) % cap : Nat) : Int)
    rw [ht, hcap, List.length_append, ← Nat.cast_add, tmod_coe]
    congr 1
    rw [add_mod_left_cancel, Nat.add_assoc]
  · intro i hi
    show (write_span buf buf.tail b).data (((p + i) % cap : Nat) : Int)
      = (xs ++ b).get ⟨i, hi⟩
    rw [write_span_data, ht]
    rcases Nat.lt_or_ge i xs.length with him | him
    · -- an item already present before the batch: its slot is outside
      -- the written window [tail, tail + b.length)
      have hdisj : ¬((p + xs.length) % cap ≤ (p + i) % cap ∧
          (p + i) % cap < (p + xs.length) % cap + b.length) := by
        rintro ⟨hle, hlt⟩
        have hSlt : (p + i) % cap < cap := Nat.mod_lt _ hpos
        have hTj : (p + (xs.length + ((p + i) % cap - (p + xs.length) % cap))) % cap
            = (p + xs.length) % cap + ((p + i) % cap - (p + xs.length) % cap) := by
          rw [← Nat.add_assoc, ← add_mod_left_cancel (p + xs.length) _ cap]
          exact Nat.mod_eq_of_lt (by omega)
        have hmods : (p + i) % cap
            = (p + (xs.length + ((p + i) % cap - (p + xs.length) % cap))) % cap := by
          rw [hTj]; omega
        have hdvd := (Nat.modEq_iff_dvd' (by omega)).mp hmods
        have := Nat.le_of_dvd (by omega) hdvd
        omega
      split
      · next hco => exact absurd ⟨by omega, by omega⟩ hdisj
      · next hco =>
        rw [hdata i him]
        exact (List.get_append i him).symm
    · -- a freshly written item: slot (p + i) % cap = tail + (i - xs.length),
      -- inside the written window
      have hik : i - xs.length < b.length := by
        have := hi; rw [List.length_append] at this; omega
      have hS : (p + i) % cap = (p + xs.length) % cap + (i - xs.length) := by
        have h1 : p + i = (p + xs.length) + (i - xs.length) := by omega
        rw [h1, ← add_mod_left_cancel (p + xs.length) _ cap]
        exact Nat.mod_eq_of_lt (by omega)
      rw [hS]
      split
      · next hco =>
        have harg : ((((p + xs.length) % cap + (i - xs.length) : Nat) : Int)
            - (((p + xs.length) % cap : Nat) : Int)).toNat = i - xs.length := by
          have h2 : ((((p + xs.length) % cap + (i - xs.length) : Nat) : Int)
              - (((p + xs.length) % cap : Nat) : Int)) = ((i - xs.length : Nat) : Int) := by
            push_cast; ring
          rw [h2, Int.toNat_natCast]
        rw [harg, List.getD_eq_get b _ hik]
        exact (List.get_append_right xs b him).symm
      · next hco => exact absurd ⟨by omega, by omega⟩ hco

/-- An empty ring of capacity `cap` whose head and tail sit at slot `p`:
any rotation of a freshly initialised ring, reachable after equally many
appended and removed items. -/
def empty_ring_at (item_size : Int) (cap p : Nat) (d0 : Int → α) : ring_buffer α :=
  { data := d0, item_size := item_size, capacity := (cap : Int),
    head := (p : Int), tail := (p : Int), count := 0 }

lemma empty_ring_at_repr (item_size : Int) (cap p : Nat) (d0 : Int → α)
    (hpos : 0 < cap) (hp : p < cap) :
    ring_repr (empty_ring_at item_size cap p d0) cap p [] := by
  refine ⟨rfl, hpos, hp, by simp, rfl, rfl, ?_, ?_⟩
  · show (p : Int) = (((p + List.length []) % cap : Nat) : Int)
    simp [Nat.mod_eq_of_lt hp]
  · intro i h
    simp at h

/-- A successful `ring_buffer_append` had its assertion satisfied. -/
lemma ring_buffer_append_bound {buf b2 : ring_buffer α} {n : Int}
    (h : ring_buffer_append buf n = some b2) :
    0 ≤ n ∧ n ≤ buf.capacity - buf.count := by
  unfold ring_buffer_append at h
  split at h
  · next hpre => exact hpre
  · exact absurd h (by simp)

/-- The C6 procedure: write the items in batches, each batch first
copied (`memcpy`) to the write pointer `ring_buffer_get_tail(buf, 0)`
and then committed with `ring_buffer_append` of the batch size, where a
batch is accepted only if its size is at most the value reported by
`ring_buffer_get_contiguous_span`. -/
def write_batches (buf : ring_buffer α) : List (List α) → Option (ring_buffer α)
  | [] => some buf
  | b :: bs =>
    if (b.length : Int) ≤ ring_buffer_get_contiguous_span buf then
      (ring_buffer_get_tail buf 0).bind fun t =>
        (ring_buffer_append (write_span buf t b) (b.length : Int)).bind fun buf2 =>
          write_batches buf2 bs
    else none

lemma write_batches_repr {cap p : Nat} :
    ∀ (bs : List (List α)) (buf : ring_buffer α) (xs : List α)
      (buf3 : ring_buffer α),
      ring_repr buf cap p xs → write_batches buf bs = some buf3 →
      ring_repr buf3 cap p (xs ++ bs.flatten) := by
  intro bs
  induction bs with
  | nil =>
    intro buf xs buf3 hr heq
    simp only [write_batches, Option.some.injEq] at heq
    subst heq
    simpa using hr
  | cons b bs ih =>
    intro buf xs buf3 hr heq
    simp only [write_batches] at heq
    split at heq
    · next hspan =>
      rw [repr_get_tail_zero hr, Option.some_bind] at heq
      cases happ : ring_buffer_append (write_span buf buf.tail b) (b.length : Int) with
      | none => rw [happ, Option.none_bind] at heq; exact absurd heq (by simp)
      | some buf2 =>
        rw [happ, Option.some_bind] at heq
        have hb := ring_buffer_append_bound happ
        rw [write_span_capacity, write_span_count] at hb
        have hfree : xs.length + b.length ≤ cap := by
          obtain ⟨hcap, -, -, -, -, hc, -, -⟩ := hr
          rw [hcap, hc] at hb
          omega
        obtain ⟨buf2', happ', hrepr2⟩ := write_step b hr hspan hfree
        rw [happ] at happ'
        cases happ'
        have := ih buf2 (xs ++ b) buf3 hrepr2 heq
        rwa [List.append_assoc] at this
    · exact absurd heq (by simp)

/-- Reading the live item `i` back through `ring_buffer_get_head`,
under the representation. -/
lemma repr_get_head {buf : ring_buffer α} {cap p : Nat} {xs : List α}
    (hr : ring_repr buf cap p xs) (i : Nat) (h : i < xs.length) :
    ring_buffer_get_head buf (i : Int) = some (((p + i) % cap : Nat) : Int) ∧
    buf.data (((p + i) % cap : Nat) : Int) = xs.get ⟨i, h⟩ := by
  obtain ⟨hcap, hpos, hp, hlen, hh, hc, ht, hdata⟩ := hr
  refine ⟨?_, hdata i h⟩
  have h1 : (i : Int) ≤ buf.count ∧ 0 < buf.count := by
    rw [hc]; omega
  have h2 : buf.capacity ≠ 0 := by rw [hcap]; exact_mod_cast hpos.ne'
  unfold ring_buffer_get_head
  rw [if_pos h1, if_neg h2, hh, hcap, ← Nat.cast_add, tmod_coe]

/-- Consumer-side batched read: item `i` of the live region, for
`i = 0 .. n-1`, through `ring_buffer_get_head(buf, i)`. -/
def ring_read_back (buf : ring_buffer α) (n : Nat) : List (Option α) :=
  (List.range n).map fun (i : Nat) =>
    (ring_buffer_get_head buf (i : Int)).map buf.data

lemma repr_read_back {buf : ring_buffer α} {cap p : Nat} {xs : List α}
    (hr : ring_repr buf cap p xs) :
    ring_read_back buf xs.length = xs.map some := by
  apply List.ext_get
  · simp [ring_read_back]
  intro i h1 h2
  have hi : i < xs.length := by simpa [ring_read_back] using h1
  obtain ⟨hhead, hdata⟩ := repr_get_head hr i hi
  simp only [ring_read_back, List.get_eq_getElem, List.getElem_map,
    List.getElem_range]
  rw [hhead, Option.map_some', hdata]
  simp [List.get_eq_getElem]

/-- Claim C6: for every item sequence written as batches into an initially
empty ring of positive capacity at an arbitrary head/tail rotation `p`,
with total length at most the capacity, where each batch is copied to
`ring_buffer_get_tail(buf, 0)` and committed by `ring_buffer_append` of
its size and is accepted only when its size is at most the value
reported by `ring_buffer_get_contiguous_span` (so the procedure runs to
completion, `isSome`), reading the items back in order through
`ring_buffer_get_head` at offsets `0 .. N-1` reproduces exactly the
written sequence — including when the live region wraps around the end
of the buffer — and the final count is `N`. -/
theorem write_batches_read_back (item_size : Int) (cap p : Nat) (d0 : Int → α)
    (bs : List (List α)) (hpos : 0 < cap) (hp : p < cap)
    (hN : bs.flatten.length ≤ cap)
    (hsome : (write_batches (empty_ring_at item_size cap p d0) bs).isSome = true) :
    (write_batches (empty_ring_at item_size cap p d0) bs).map
        (fun b2 => ring_read_back b2 bs.flatten.length)
      = some (bs.flatten.map some) ∧
    (write_batches (empty_ring_at item_size cap p d0) bs).map
        (fun b2 => b2.count)
      = some ((bs.flatten.length : Nat) : Int) := by
  obtain ⟨buf3, heq⟩ := Option.isSome_iff_exists.mp hsome
  have hr := write_batches_repr bs _ [] buf3
    (empty_ring_at_repr item_size cap p d0 hpos hp) heq
  rw [List.nil_append] at hr
  have hcount : buf3.count = ((bs.flatten.length : Nat) : Int) := by
    obtain ⟨-, -, -, -, -, hc, -, -⟩ := hr
    exact hc
  rw [heq, Option.map_some', Option.map_some', repr_read_back hr, hcount]
  exact ⟨rfl, rfl⟩

/-- Concrete C6 scenario: capacity 4, head/tail starting at slot 2, two
batches of two items; the second batch wraps past the end of the
buffer. -/
def c6_junk : Int → Nat := fun _ => 0

theorem write_batches_read_back_witness :
    (write_batches (empty_ring_at 1 4 2 c6_junk) [[10, 20], [30, 40]]).map
        (fun b2 => ring_read_back b2 ([[10, 20], [30, 40]] : List (List Nat)).flatten.length)
      = some (([[10, 20], [30, 40]] : List (List Nat)).flatten.map some) ∧
    (write_batches (empty_ring_at 1 4 2 c6_junk) [[10, 20], [30, 40]]).map
        (fun b2 => b2.count)
      = some ((([[10, 20], [30, 40]] : List (List Nat)).flatten.length : Nat) : Int) :=
  write_batches_read_back 1 4 2 c6_junk [[10, 20], [30, 40]]
    (by decide) (by decide) (by decide) (by decide)

/-- The span-bounded copy loop at the end of `poll_av_packet_audio` in
decoding.c, applied to the `sample_count` resampled samples (here the
list `items`): while samples remain, obtain the write pointer
`ring_buffer_get_tail(buf, 0)` and the contiguous span, clamp the span
to the remaining samples (`if (span_count > sample_count) span_count =
sample_count`), `memcpy` that many samples, `ring_buffer_append` them
and advance.  `fuel` bounds the number of iterations; the loop theorem
shows `items.length + 1` iterations always suffice. -/
def audio_copy_loop : Nat → ring_buffer α → List α → Option (ring_buffer α)
  | _, buf, [] => some buf
  | 0, _, _ :: _ => none
  | fuel + 1, buf, x :: rest =>
    (ring_buffer_get_tail buf 0).bind fun t =>
      (ring_buffer_append
          (write_span buf t ((x :: rest).take
            (if ring_buffer_get_contiguous_span buf > ((x :: rest).length : Int)
              then ((x :: rest).length : Int)
              else ring_buffer_get_contiguous_span buf).toNat))
          (if ring_buffer_get_contiguous_span buf > ((x :: rest).length : Int)
            then ((x :: rest).length : Int)
            else ring_buffer_get_contiguous_span buf)).bind fun buf2 =>
        audio_copy_loop fuel buf2 ((x :: rest).drop
          (if ring_buffer_get_contiguous_span buf > ((x :: rest).length : Int)
            then ((x :: rest).length : Int)
            else ring_buffer_get_contiguous_span buf).toNat)

lemma audio_copy_loop_repr {cap p : Nat} :
    ∀ (fuel : Nat) (ys : List α) (buf : ring_buffer α) (xs : List α),
      ring_repr buf cap p xs → xs.length + ys.length ≤ cap →
      ys.length < fuel →
      ∃ buf2, audio_copy_loop fuel buf ys = some buf2 ∧
        ring_repr buf2 cap p (xs ++ ys) := by
  intro fuel
  induction fuel with
  | zero =>
    intro ys buf xs hr hn hfuel
    omega
  | succ fuel ih =>
    intro ys buf xs hr hn hfuel
    cases ys with
    | nil => exact ⟨buf, rfl, by simpa using hr⟩
    | cons x rest =>
      have hmlt : xs.length < cap := by
        have : 1 ≤ (x :: rest).length := by simp
        omega
      have hspanpos := repr_span_pos hr hmlt
      set S := ring_buffer_get_contiguous_span buf with hS
      set scv : Int := (if S > ((x :: rest).length : Int)
          then ((x :: rest).length : Int) else S) with hscv
      have hn1 : 1 ≤ (x :: rest).length := by simp
      have hprops : 1 ≤ scv ∧ scv ≤ S ∧ scv ≤ ((x :: rest).length : Int) := by
        rw [hscv]
        split <;> rename_i hco
        · refine ⟨by exact_mod_cast hn1, le_of_lt hco, le_refl _⟩
        · exact ⟨hspanpos, le_refl _, by omega⟩
      have hblen : ((x :: rest).take scv.toNat).length = scv.toNat := by
        rw [List.length_take]
        have : scv.toNat ≤ (x :: rest).length := by omega
        omega
      have hspan2 : ((((x :: rest).take scv.toNat).length : Nat) : Int) ≤ S := by
        rw [hblen]; omega
      have hfree2 : xs.length + ((x :: rest).take scv.toNat).length ≤ cap := by
        rw [hblen]
        have : scv.toNat ≤ (x :: rest).length := by omega
        omega
      obtain ⟨buf2, happ, hrepr2⟩ := write_step _ hr hspan2 hfree2
      have hcast : ((((x :: rest).take scv.toNat).length : Nat) : Int) = scv := by
        rw [hblen]; omega
      rw [hcast] at happ
      have hdroplen : ((x :: rest).drop scv.toNat).length
          = (x :: rest).length - scv.toNat := by
        rw [List.length_drop]
      obtain ⟨buf3, hloop, hrepr3⟩ := ih ((x :: rest).drop scv.toNat) buf2
        (xs ++ (x :: rest).take scv.toNat) hrepr2
        (by rw [List.length_append, hblen, hdroplen]; omega)
        (by rw [hdroplen]; omega)
      refine ⟨buf3, ?_, ?_⟩
      · show (ring_buffer_get_tail buf 0).bind _ = some buf3
        rw [repr_get_tail_zero hr, Option.some_bind, ← hS, ← hscv, happ,
          Option.some_bind, hloop]
      · rwa [List.append_assoc, List.take_append_drop] at hrepr3

/-- Claim C9: for every chunk of `n` resampled samples with
`n ≤ capacity - count` and a ring of positive capacity (holding `xs`,
so `count = xs.length`), the span-copy loop of `poll_av_packet_audio`
terminates within `n + 1` iterations — each iteration appends
`min(remaining, contiguous_span) ≥ 1` samples, the span being at least
1 whenever `count < capacity` (first conjunct) — and on exit the count
has increased by exactly `n`, with the `n` samples readable back in
order right after the previously buffered ones. -/
theorem poll_av_packet_audio_copy_loop (cap p : Nat) (xs ys : List α)
    (buf : ring_buffer α) (hr : ring_repr buf cap p xs)
    (hn : xs.length + ys.length ≤ cap) :
    (xs.length < cap → 1 ≤ ring_buffer_get_contiguous_span buf) ∧
    ∃ buf2, audio_copy_loop (ys.length + 1) buf ys = some buf2 ∧
      buf2.count = buf.count + (ys.length : Int) ∧
      ∀ i, (h : i < ys.length) →
        ∃ idx, ring_buffer_get_head buf2 ((xs.length + i : Nat) : Int)
            = some idx ∧
          buf2.data idx = ys.get ⟨i, h⟩ := by
  refine ⟨fun hm => repr_span_pos hr hm, ?_⟩
  obtain ⟨buf2, hloop, hrepr⟩ :=
    audio_copy_loop_repr (ys.length + 1) ys buf xs hr hn (by omega)
  refine ⟨buf2, hloop, ?_, ?_⟩
  · obtain ⟨-, -, -, -, -, hc2, -, -⟩ := hrepr
    obtain ⟨-, -, -, -, -, hc1, -, -⟩ := hr
    rw [hc2, hc1, List.length_append]
    push_cast
    ring
  · intro i h
    have hi2 : xs.length + i < (xs ++ ys).length := by
      rw [List.length_append]; omega
    obtain ⟨hhead, hdata⟩ := repr_get_head hrepr (xs.length + i) hi2
    refine ⟨_, hhead, ?_⟩
    rw [hdata, List.get_append_right xs ys (by omega)]
    · congr 1
      exact Fin.ext (by simp)
    · omega

/-- Concrete C9 scenario: capacity 4, two samples already buffered at
slots 2 and 3 (so the tail has wrapped to slot 0), appending a chunk of
two more samples. -/
def c9_ring : ring_buffer Nat :=
  { data := fun j => if j = 2 then 5 else if j = 3 then 6 else 0,
    item_size := 1, capacity := 4, head := 2, tail := 0, count := 2 }

theorem poll_av_packet_audio_copy_loop_witness :
    (([5, 6] : List Nat).length < 4 →
      1 ≤ ring_buffer_get_contiguous_span c9_ring) ∧
    ∃ buf2, audio_copy_loop (([7, 8] : List Nat).length + 1) c9_ring [7, 8]
        = some buf2 ∧
      buf2.count = c9_ring.count + ((([7, 8] : List Nat).length : Nat) : Int) ∧
      ∀ i, (h : i < ([7, 8] : List Nat).length) →
        ∃ idx, ring_buffer_get_head buf2
            ((([5, 6] : List Nat).length + i : Nat) : Int) = some idx ∧
          buf2.data idx = ([7, 8] : List Nat).get ⟨i, h⟩ :=
  poll_av_packet_audio_copy_loop 4 2 [5, 6] [7, 8] c9_ring
    (by decide) (by decide)

/-- State of the video re-timing path of `poll_av_packet_video` in
decoding.c: the contents of the video frame ring (each frame identified
by the source pts it was converted from; a duplicate repeats the
previous entry, mirroring the `memcpy` from `ring_buffer_get_tail(buf,
1)`) and the running cursor `video_next_pts`.  The ring itself never
wraps in the scenarios below (its capacity, 0x20 frames, is never
reached), so it is modelled by the list of frames it holds, `count`
being the list length.  The C `double` arithmetic on seconds is
modelled by exact rationals. -/
structure video_state where
  frames : List ℚ
  video_next_pts : ℚ
deriving DecidableEq

/-- The duplication loop of `poll_av_packet_video`:
`while ((video_next_pts + frame_time) < pts)`, copy the most recently
written frame (`ring_buffer_get_tail(buf, 1)`) into the write slot
(`ring_buffer_get_tail(buf, 0)`), `ring_buffer_append(buf, 1)` and
advance the cursor by `frame_time`.  `fuel` bounds the iterations; in
every run below the loop exits by its own condition, so the result does
not depend on the fuel. -/
def video_dup_loop (frame_time pts : ℚ) : Nat → video_state → video_state
  | 0, st => st
  | fuel + 1, st =>
    if st.video_next_pts + frame_time < pts then
      video_dup_loop frame_time pts fuel
        { frames := st.frames ++ [st.frames.getLastD 0],
          video_next_pts := st.video_next_pts + frame_time }
    else st

/-- Tail of `poll_av_packet_video`: run the duplication loop, then
write the converted frame itself into `ring_buffer_get_tail(buf, 0)`,
`ring_buffer_append(buf, 1)` and advance the cursor once more. -/
def video_emit_rest (frame_time : ℚ) (fuel : Nat) (st : video_state)
    (pts : ℚ) : video_state :=
  { frames := (video_dup_loop frame_time pts fuel st).frames ++ [pts],
    video_next_pts :=
      (video_dup_loop frame_time pts fuel st).video_next_pts + frame_time }

/-- The frame-rate conversion of `poll_av_packet_video` in decoding.c,
entered after a successful decode and the nonzero-size guards (the
FFmpeg decode and scaling calls are the out-of-scope collaborator):
if the video ring is empty the cursor is reset to the frame's pts
(first frame never dropped); otherwise a frame with `pts <
video_next_pts` is dropped; otherwise duplicates are inserted while
`video_next_pts + frame_time < pts` and the frame is emitted. -/
def poll_av_packet_video (frame_time : ℚ) (fuel : Nat) (st : video_state)
    (pts : ℚ) : video_state :=
  if st.frames.length = 0 then
    video_emit_rest frame_time fuel { st with video_next_pts := pts } pts
  else if pts < st.video_next_pts then st
  else video_emit_rest frame_time fuel st pts

/-- Feeding a sequence of decoded frames (their pts values) through
`poll_av_packet_video`, in order. -/
def poll_av_video_frames (frame_time : ℚ) (fuel : Nat) (st : video_state)
    (ptss : List ℚ) : video_state :=
  ptss.foldl (poll_av_packet_video frame_time fuel) st

/-- The session state set up by `open_av_data`: empty video ring,
`video_next_pts = 0.0`. -/
def video_init_state : video_state := { frames := [], video_next_pts := 0 }

lemma video_dup_loop_no_iter (frame_time pts : ℚ) (fuel : Nat)
    (st : video_state) (h : ¬ st.video_next_pts + frame_time < pts) :
    video_dup_loop frame_time pts fuel st = st := by
  cases fuel with
  | zero => rfl
  | succ n => unfold video_dup_loop; rw [if_neg h]

/-- Claim C4: a decoded video frame that arrives while the video ring is
empty is never dropped, for every session state and every pts:
`poll_av_packet_video` resets `video_next_pts` to the frame's pts
(regardless of how pts compares to the cursor's previous value), skips
the duplication loop, appends the frame, and leaves the cursor at
`pts + frame_time`.  `0 < frame_time` holds for every valid fps
(`frame_time = fps_den / fps_num` with positive numerator and
denominator). -/
theorem poll_av_packet_video_first_frame (frame_time : ℚ) (fuel : Nat)
    (prev pts : ℚ) (hft : 0 < frame_time) :
    (poll_av_packet_video frame_time fuel ⟨[], prev⟩ pts).frames = [pts] ∧
    (poll_av_packet_video frame_time fuel ⟨[], prev⟩ pts).video_next_pts
      = pts + frame_time := by
  have hloop : video_dup_loop frame_time pts fuel ⟨[], pts⟩ = ⟨[], pts⟩ :=
    video_dup_loop_no_iter _ _ _ _
      (by show ¬ pts + frame_time < pts; linarith)
  constructor <;>
    simp [poll_av_packet_video, video_emit_rest, hloop]

theorem poll_av_packet_video_first_frame_witness :
    (0 : ℚ) < 1/5 ∧
    ((poll_av_packet_video (1/5) 3 ⟨[], 7⟩ (-2)).frames = [-2] ∧
     (poll_av_packet_video (1/5) 3 ⟨[], 7⟩ (-2)).video_next_pts
       = -2 + 1/5) :=
  ⟨by norm_num,
   poll_av_packet_video_first_frame (1/5) 3 7 (-2) (by norm_num)⟩

/-- Claim C5: with `frame_time = 0.2` and decoded frames at pts
`0.0, 0.05, 0.1, 0.15, 0.2` into an initially empty ring, exactly the
frames at 0.0 and 0.2 are emitted and the three intermediate frames
are dropped (first conjunct).  In general, a frame with `pts` equal to
the cursor is accepted, appending exactly that frame (greater-or-equal
admits, second conjunct), and a frame with `pts` exactly equal to
`video_next_pts + frame_time` triggers no duplicate, appending exactly
that frame (strict less-than in the loop, third conjunct). -/
theorem poll_av_packet_video_boundaries (frame_time : ℚ) (fuel : Nat)
    (st : video_state) (pts : ℚ) (hft : 0 < frame_time) :
    (poll_av_video_frames (1/5) 8 video_init_state
        [0, 1/20, 1/10, 3/20, 1/5]).frames = [0, 1/5] ∧
    (st.frames ≠ [] → pts = st.video_next_pts →
      (poll_av_packet_video frame_time fuel st pts).frames
        = st.frames ++ [pts]) ∧
    (st.frames ≠ [] → pts = st.video_next_pts + frame_time →
      (poll_av_packet_video frame_time fuel st pts).frames
        = st.frames ++ [pts]) := by
  refine ⟨by norm_num [poll_av_video_frames, poll_av_packet_video,
    video_emit_rest, video_dup_loop, video_init_state], ?_, ?_⟩
  · intro hne hpts
    have hlen : ¬ st.frames.length = 0 := by
      simpa [List.length_eq_zero] using hne
    have hdrop : ¬ pts < st.video_next_pts := by
      rw [hpts]; exact lt_irrefl _
    have hloop := video_dup_loop_no_iter frame_time pts fuel st
      (by rw [hpts]; linarith)
    unfold poll_av_packet_video video_emit_rest
    rw [if_neg hlen, if_neg hdrop, hloop]
  · intro hne hpts
    have hlen : ¬ st.frames.length = 0 := by
      simpa [List.length_eq_zero] using hne
    have hdrop : ¬ pts < st.video_next_pts := by rw [hpts]; linarith
    have hloop := video_dup_loop_no_iter frame_time pts fuel st
      (by rw [hpts]; linarith)
    unfold poll_av_packet_video video_emit_rest
    rw [if_neg hlen, if_neg hdrop, hloop]

theorem poll_av_packet_video_boundaries_witness :
    (0 : ℚ) < 1/5 ∧
    ((poll_av_video_frames (1/5) 8 video_init_state
        [0, 1/20, 1/10, 3/20, 1/5]).frames = [0, 1/5] ∧
     ((⟨[3], 2⟩ : video_state).frames ≠ [] → (2 : ℚ) = (⟨[3], 2⟩ : video_state).video_next_pts →
       (poll_av_packet_video (1/5) 4 ⟨[3], 2⟩ 2).frames = [3] ++ [2]) ∧
     ((⟨[3], 2⟩ : video_state).frames ≠ [] → (2 : ℚ) = (⟨[3], 2⟩ : video_state).video_next_pts + 1/5 →
       (poll_av_packet_video (1/5) 4 ⟨[3], 2⟩ 2).frames = [3] ++ [2])) :=
  ⟨by norm_num, poll_av_packet_video_boundaries (1/5) 4 ⟨[3], 2⟩ 2 (by norm_num)⟩

/-- Claim C3, counterexample: with `frame_time = 0.2` and decoded frames at
pts 0.0 and 0.5 consumed from an initially empty ring, the state in
which the frame with pts 1.0 is about to be processed holds 3 frames,
not the 6 frames claimed. -/
theorem poll_av_packet_video_dup_count_counterexample :
    ¬ ((poll_av_video_frames (1/5) 8 video_init_state [0, 1/2]).frames.length
        = 6) := by
  norm_num [poll_av_video_frames, poll_av_packet_video, video_emit_rest,
    video_dup_loop, video_init_state]

/-- Claim C3, amended: with `frame_time = 0.2` and frames arriving at pts
0.0, 0.5 and 1.0 into an initially empty ring, exactly 3 frames have
been emitted before the frame with pts 1.0 is processed — the 0.0
frame, one duplicate of it (the loop advances the cursor from 0.2 to
0.4), and the 0.5 frame (cursor 0.6); processing the 1.0 frame then
adds one duplicate of the 0.5 frame (cursor 0.8) and the 1.0 frame
itself, for 5 frames in total. -/
theorem poll_av_packet_video_dup_count :
    (poll_av_video_frames (1/5) 8 video_init_state [0, 1/2]).frames
      = [0, 0, 1/2] ∧
    (poll_av_video_frames (1/5) 8 video_init_state [0, 1/2, 1]).frames
      = [0, 0, 1/2, 1/2, 1] := by
  constructor <;>
    norm_num [poll_av_video_frames, poll_av_packet_video, video_emit_rest,
      video_dup_loop, video_init_state]

/-- A coded packet of the source container, as routed by
`poll_av_data`: its stream index, plus the abstract effect its
processing would have on the session — `poll_av_packet_audio` appends
`audio_add ≥ 0` resampled samples to the audio ring, and
`poll_av_packet_video` appends `video_add ≥ 0` frames to the video
ring and leaves the cursor at `video_pts_upd` (the decode, resample
and scale steps inside those calls are the out-of-scope collaborator,
so their outcome is recorded on the packet). -/
structure av_packet where
  stream_index : Int
  audio_add : Nat
  video_add : Nat
  video_pts_upd : ℚ

/-- The session state seen by `poll_av_data` and `ensure_av_data` in
decoding.c: the two ring counts, the video cursor, the `end_of_input`
flag, the recorded single audio/video stream indices (−1 when the
track is absent) and the remaining packets of the source (an empty
list models `av_read_frame` reporting end of file). -/
structure av_decoder where
  audio_count : Int
  video_count : Int
  video_next_pts : ℚ
  end_of_input : Bool
  audio_stream_index : Int
  video_stream_index : Int
  packets : List av_packet

/-- Embedding of `poll_av_data` from decoding.c: if `end_of_input` is
already set, return false; otherwise read the next packet — on end of
file set `end_of_input` and return false; on success route the packet
to `poll_av_packet_audio` if its stream index equals the recorded audio
stream index, else to `poll_av_packet_video` if it equals the recorded
video stream index, else discard it, and return true in all three
cases. -/
def poll_av_data (d : av_decoder) : Bool × av_decoder :=
  if d.end_of_input then (false, d)
  else
    match d.packets with
    | [] => (false, { d with end_of_input := true })
    | pk :: rest =>
      if pk.stream_index = d.audio_stream_index then
        (true, { d with audio_count := d.audio_count + (pk.audio_add : Int),
                        packets := rest })
      else if pk.stream_index = d.video_stream_index then
        (true, { d with video_count := d.video_count + (pk.video_add : Int),
                        video_next_pts := pk.video_pts_upd,
                        packets := rest })
      else (true, { d with packets := rest })

/-- Embedding of `ensure_av_data` from decoding.c: loop while
`(needed_audio_samples && audio_samples.count <= needed_audio_samples)
|| (needed_video_frames && video_frames.count <= needed_video_frames)`
(C truthiness: a nonzero request counts); inside the loop call
`poll_av_data`, and when it reports no more data return
`(audio_samples.count > 0 || !needed_audio_samples) &&
(video_frames.count > 0 || !needed_video_frames)`; when the loop
condition clears, return true.  `fuel` bounds the number of
iterations; `packets.length + 1` always suffices (see
`ensure_av_data_total`), since every true-returning poll consumes one
packet. -/
def ensure_av_data : Nat → av_decoder → Int → Int → Option (Bool × av_decoder)
  | 0, _, _, _ => none
  | fuel + 1, d, na, nv =>
    if (na ≠ 0 ∧ d.audio_count ≤ na) ∨ (nv ≠ 0 ∧ d.video_count ≤ nv) then
      match poll_av_data d with
      | (true, d2) => ensure_av_data fuel d2 na nv
      | (false, d2) =>
        some (decide ((0 < d2.audio_count ∨ na = 0) ∧
          (0 < d2.video_count ∨ nv = 0)), d2)
    else some (true, d)

/-- Claim C10: a packet whose stream index matches neither the recorded audio
stream index nor the recorded video stream index is consumed and
discarded: `poll_av_data` still returns true, and the audio ring, the
video ring, `video_next_pts` and `end_of_input` are all left
unchanged. -/
theorem poll_av_data_skips_unmatched (d : av_decoder) (pk : av_packet)
    (rest : List av_packet) (hp : d.packets = pk :: rest)
    (heoi : d.end_of_input = false)
    (ha : pk.stream_index ≠ d.audio_stream_index)
    (hv : pk.stream_index ≠ d.video_stream_index) :
    (poll_av_data d).1 = true ∧
    (poll_av_data d).2.audio_count = d.audio_count ∧
    (poll_av_data d).2.video_count = d.video_count ∧
    (poll_av_data d).2.video_next_pts = d.video_next_pts ∧
    (poll_av_data d).2.end_of_input = d.end_of_input ∧
    (poll_av_data d).2.packets = rest := by
  unfold poll_av_data
  rw [heoi, hp]
  simp [ha, hv]

/-- Concrete C10 scenario: audio stream 0, video stream 1, a packet of
stream 7 (e.g. a subtitle track). -/
def c10_decoder : av_decoder :=
  { audio_count := 3, video_count := 2, video_next_pts := 5,
    end_of_input := false, audio_stream_index := 0,
    video_stream_index := 1,
    packets := [{ stream_index := 7, audio_add := 9, video_add := 9,
                  video_pts_upd := 9 }] }

theorem poll_av_data_skips_unmatched_witness :
    (poll_av_data c10_decoder).1 = true ∧
    (poll_av_data c10_decoder).2.audio_count = c10_decoder.audio_count ∧
    (poll_av_data c10_decoder).2.video_count = c10_decoder.video_count ∧
    (poll_av_data c10_decoder).2.video_next_pts = c10_decoder.video_next_pts ∧
    (poll_av_data c10_decoder).2.end_of_input = c10_decoder.end_of_input ∧
    (poll_av_data c10_decoder).2.packets = [] :=
  poll_av_data_skips_unmatched c10_decoder _ [] rfl rfl
    (by decide) (by decide)

lemma ensure_av_data_props :
    ∀ (fuel : Nat) (d : av_decoder) (na nv : Int), 0 ≤ na → 0 ≤ nv →
      d.packets.length < fuel →
      ∃ r d2, ensure_av_data fuel d na nv = some (r, d2) ∧
        (d2.end_of_input = false → r = true ∧
          (na ≠ 0 → na < d2.audio_count) ∧ (nv ≠ 0 → nv < d2.video_count)) ∧
        (r = true ↔ ((na ≠ 0 → 0 < d2.audio_count) ∧
          (nv ≠ 0 → 0 < d2.video_count))) ∧
        (na = 0 ∧ nv = 0 → r = true ∧ d2 = d) := by
  intro fuel
  induction fuel with
  | zero =>
    intro d na nv hna hnv hlen
    omega
  | succ fuel ih =>
    intro d na nv hna hnv hlen
    rw [ensure_av_data]
    split
    · next hcond =>
      have hboth : ¬ (na = 0 ∧ nv = 0) := by
        rintro ⟨h1, h2⟩
        simp [h1, h2] at hcond
      cases heoi : d.end_of_input with
      | true =>
        have hpoll : poll_av_data d = (false, d) := by
          unfold poll_av_data; rw [heoi]; rfl
        rw [hpoll]
        refine ⟨_, d, rfl, ?_, ?_, fun hb => absurd hb hboth⟩
        · intro hfalse; rw [heoi] at hfalse; exact absurd hfalse (by simp)
        · constructor
          · intro hr
            have := of_decide_eq_true hr
            exact ⟨fun h => (this.1).resolve_right h, fun h => (this.2).resolve_right h⟩
          · intro hpr
            apply decide_eq_true
            constructor
            · by_cases hz : na = 0
              · exact Or.inr hz
              · exact Or.inl (hpr.1 hz)
            · by_cases hz : nv = 0
              · exact Or.inr hz
              · exact Or.inl (hpr.2 hz)
      | false =>
        cases hpk : d.packets with
        | nil =>
          have hpoll : poll_av_data d = (false, { d with end_of_input := true }) := by
            unfold poll_av_data; rw [heoi, hpk]; rfl
          rw [hpoll]
          refine ⟨_, _, rfl, ?_, ?_, fun hb => absurd hb hboth⟩
          · intro hfalse; exact absurd hfalse (by simp)
          · constructor
            · intro hr
              have := of_decide_eq_true hr
              exact ⟨fun h => (this.1).resolve_right h, fun h => (this.2).resolve_right h⟩
            · intro hpr
              apply decide_eq_true
              constructor
              · by_cases hz : na = 0
                · exact Or.inr hz
                · exact Or.inl (hpr.1 hz)
              · by_cases hz : nv = 0
                · exact Or.inr hz
                · exact Or.inl (hpr.2 hz)
        | cons pk rest =>
          have hlen2 : rest.length < fuel := by
            rw [hpk] at hlen; simp at hlen; omega
          by_cases hai : pk.stream_index = d.audio_stream_index
          · have hpoll : poll_av_data d =
                (true, { d with audio_count := d.audio_count + (pk.audio_add : Int),
                                packets := rest }) := by
              unfold poll_av_data; rw [heoi, hpk]; simp [hai]
            rw [hpoll]
            obtain ⟨r, d2, heq, hprops⟩ := ih
              { d with audio_count := d.audio_count + (pk.audio_add : Int),
                       packets := rest } na nv hna hnv hlen2
            exact ⟨r, d2, heq, hprops.1, hprops.2.1, fun hb => absurd hb hboth⟩
          · by_cases hvi : pk.stream_index = d.video_stream_index
            · have hpoll : poll_av_data d =
                  (true, { d with video_count := d.video_count + (pk.video_add : Int),
                                  video_next_pts := pk.video_pts_upd,
                                  packets := rest }) := by
                unfold poll_av_data; rw [heoi, hpk]; simp [if_neg hai, if_pos hvi]
              rw [hpoll]
              obtain ⟨r, d2, heq, hprops⟩ := ih
                { d with video_count := d.video_count + (pk.video_add : Int),
                         video_next_pts := pk.video_pts_upd,
                         packets := rest } na nv hna hnv hlen2
              exact ⟨r, d2, heq, hprops.1, hprops.2.1, fun hb => absurd hb hboth⟩
            · have hpoll : poll_av_data d = (true, { d with packets := rest }) := by
                unfold poll_av_data; rw [heoi, hpk]; simp [hai, hvi]
              rw [hpoll]
              obtain ⟨r, d2, heq, hprops⟩ := ih
                { d with packets := rest } na nv hna hnv hlen2
              exact ⟨r, d2, heq, hprops.1, hprops.2.1, fun hb => absurd hb hboth⟩
    · next hcond =>
      push_neg at hcond
      refine ⟨true, d, rfl, ?_, ?_, fun _ => ⟨rfl, rfl⟩⟩
      · rintro -
        exact ⟨rfl, hcond.1, hcond.2⟩
      · constructor
        · rintro -
          exact ⟨fun hz => by have := hcond.1 hz; omega,
                 fun hz => by have := hcond.2 hz; omega⟩
        · rintro -
          rfl

/-- Claim C1: characterisation of `ensure_av_data` (run with enough fuel for
its loop, `packets.length + 1`, which always suffices).  For
non-negative requests: (i) if the final state is not exhausted, the
loop exited by its own condition clearing, the call returns true, and
each requested ring holds strictly more than the requested amount
(the deliberate `<=` look-ahead); (ii) the call returns true exactly
when, for each dimension with a nonzero request, the corresponding
ring is non-empty — so after exhaustion, `ensure(100, 0)` returns true
while `audio_count ∈ [1, 100]` (the loop kept pulling, then drained)
and false once `audio_count = 0`; (iii) a request pair `(0, 0)` never
blocks: the call returns true immediately with the state untouched. -/
theorem ensure_av_data_drain (d : av_decoder) (na nv : Int)
    (hna : 0 ≤ na) (hnv : 0 ≤ nv) :
    ∃ r d2, ensure_av_data (d.packets.length + 1) d na nv = some (r, d2) ∧
      (d2.end_of_input = false → r = true ∧
        (na ≠ 0 → na < d2.audio_count) ∧ (nv ≠ 0 → nv < d2.video_count)) ∧
      (r = true ↔ ((na ≠ 0 → 0 < d2.audio_count) ∧
        (nv ≠ 0 → 0 < d2.video_count))) ∧
      (na = 0 ∧ nv = 0 → r = true ∧ d2 = d) :=
  ensure_av_data_props (d.packets.length + 1) d na nv hna hnv (by omega)

/-- Concrete C1 scenario: a source about to report end of file while 5
audio samples are buffered, queried with `ensure(100, 0)`. -/
def c1_decoder : av_decoder :=
  { audio_count := 5, video_count := 0, video_next_pts := 0,
    end_of_input := false, audio_stream_index := 0,
    video_stream_index := -1, packets := [] }

theorem ensure_av_data_drain_witness :
    ∃ r d2, ensure_av_data (c1_decoder.packets.length + 1) c1_decoder 100 0
        = some (r, d2) ∧
      (d2.end_of_input = false → r = true ∧
        ((100 : Int) ≠ 0 → 100 < d2.audio_count) ∧
        ((0 : Int) ≠ 0 → 0 < d2.video_count)) ∧
      (r = true ↔ (((100 : Int) ≠ 0 → 0 < d2.audio_count) ∧
        ((0 : Int) ≠ 0 → 0 < d2.video_count))) ∧
      ((100 : Int) = 0 ∧ (0 : Int) = 0 → r = true ∧ d2 = c1_decoder) :=
  ensure_av_data_drain c1_decoder 100 0 (by decide) (by decide)

end Psxavenc
